import Mathlib

/-!
Verification of `DisplayListLogBuffer.cpp` (frameworks/base/libs/hwui).

The file embeds the two components of the C++ source:

* the command ring: a `BUFFER_SIZE = NUM_COMMANDS + 1`-slot circular buffer of
  `(level, label)` pairs with two cursors `mStart` / `mEnd`
  (`DisplayListLogBuffer::DisplayListLogBuffer`, `writeCommand`,
  `outputCommands`);
* the duration aggregator: two label-keyed tables of `OpEntry` statistics
  (`mOpBuffer`, `mOpBufferPerFrame`), fed by the duration overload of
  `writeCommand` and reported by `outputCommandsInternal`, with the
  per-frame lifecycle hooks `preFlush` / `postFlush`.

The aggregation code sits under `#if DEBUG_DISPLAY_LIST`; the embedding models
the configuration with that flag enabled, which is the configuration the
specification describes.  C pointers are replaced by array indices, `FILE*`
sinks by lists of output lines, and the `const char*` labels (compared by
pointer identity in the source) by an abstract decidable-equality type
instantiated with `String`.  Durations (`nsecs_t`, a signed 64-bit integer)
are modelled as `Int` with the `INT64_MAX` bound made explicit; the source
only ever forms `INT64_MAX - duration` for the nonnegative elapsed times the
renderer passes, where the C++ expression is well defined and agrees with the
integer arithmetic used here.
-/

namespace DisplayListLogBuffer

/-- NUM_COMMANDS from the source (`#define NUM_COMMANDS 50`). -/
def NUM_COMMANDS : Nat := 50

/-- BUFFER_SIZE from the source (`#define BUFFER_SIZE ((NUM_COMMANDS) + 1)`). -/
def BUFFER_SIZE : Nat := NUM_COMMANDS + 1

/-- OpLog record stored in one ring slot: nesting level and label. -/
structure OpLog where
  level : Nat
  label : String
deriving DecidableEq, Repr, Inhabited

/-- Ring state: `bufferSize` slots (the code's `BUFFER_SIZE`), the backing
store `buf` (indices replace the `mBufferFirst`/`mBufferLast` pointers), the
read cursor `mStart` and the write cursor `mEnd`. `buf` is total on `Nat`;
only indices below `bufferSize` are ever used. -/
structure Ring where
  bufferSize : Nat
  buf : Nat → OpLog
  mStart : Nat
  mEnd : Nat

/-- Constructor `DisplayListLogBuffer::DisplayListLogBuffer`: `malloc` a
`BUFFER_SIZE`-slot array (its contents `g` are arbitrary garbage) and set
`mStart = mEnd = mBufferFirst`, i.e. both cursors at index 0. -/
def mkRing (size : Nat) (g : Nat → OpLog) : Ring :=
  { bufferSize := size, buf := g, mStart := 0, mEnd := 0 }

/-- The ring part of `DisplayListLogBuffer::writeCommand(int, const char*)`:
store `(level, label)` at `mEnd`, advance `mEnd` with wraparound
(`mEnd == mBufferLast` means index `bufferSize - 1`), and if the advanced
`mEnd` hits `mStart`, advance `mStart` with wraparound as well. -/
def writeCommand (r : Ring) (level : Nat) (label : String) : Ring :=
  let buf' : Nat → OpLog := fun i => if i = r.mEnd then ⟨level, label⟩ else r.buf i
  let mEnd' : Nat := if r.mEnd = r.bufferSize - 1 then 0 else r.mEnd + 1
  let mStart' : Nat :=
    if mEnd' = r.mStart then
      if r.mStart + 1 > r.bufferSize - 1 then 0 else r.mStart + 1
    else r.mStart
  { r with buf := buf', mEnd := mEnd', mStart := mStart' }

/-- Fold a list of `(level, label)` commands into the ring. -/
def writeSeq (r : Ring) (cmds : List (Nat × String)) : Ring :=
  cmds.foldl (fun s c => writeCommand s c.1 c.2) r

/-- Output line for one ring entry, from
`fprintf(file, "%*s%s\n", 2 * p->level, "", p->label)`: `2 * level` spaces
followed by the label (each `fprintf` emits one newline-terminated line). -/
def mkLine (e : OpLog) : String :=
  String.mk (List.replicate (2 * e.level) ' ') ++ e.label

/-- The `while (true)` loop of `DisplayListLogBuffer::outputCommands`,
with explicit fuel: starting from the iteration cursor `ptr`, stop when
`ptr == mEnd`, otherwise emit the line for slot `ptr` and advance `ptr`
with wraparound (`tmpBufferPtr++; if (tmpBufferPtr > mBufferLast)
tmpBufferPtr = mBufferFirst`).  `none` means the fuel ran out before the
loop's exit condition was reached. -/
def dumpLoop (r : Ring) (ptr : Nat) : Nat → Option (List String)
  | 0 => none
  | fuel + 1 =>
    if ptr = r.mEnd then some []
    else
      (dumpLoop r (if ptr + 1 > r.bufferSize - 1 then 0 else ptr + 1) fuel).map
        (fun rest => mkLine (r.buf ptr) :: rest)

/-- Chronological ring dump: run the loop from `mStart`.  Fuel `bufferSize`
suffices for every state satisfying the cursor invariant (proved below). -/
def dumpAll (r : Ring) : List String :=
  (dumpLoop r r.mStart r.bufferSize).getD []

/-! Duration aggregator. -/

/-- INT64_MAX, the ceiling of the `nsecs_t` (signed 64-bit) accumulator. -/
def INT64_MAX : Int := 2 ^ 63 - 1

/-- OpEntry statistics record (fields as used by the source:
name, count, total / max / last duration). -/
structure OpEntry where
  mName : String
  mCount : Int
  mTotalDuration : Int
  mMaxDuration : Int
  mLastDuration : Int
deriving DecidableEq, Repr

/-- Modelled from the spec: the constructor `OpEntry(label, 1, duration)`
invoked at line 146 of the source is declared in `DisplayListLogBuffer.h`,
which is not among the sources.  Per the spec, inserting an absent label
creates a stat with count 1 and all duration fields set to `duration`. -/
def OpEntry.init (label : String) (duration : Int) : OpEntry :=
  { mName := label, mCount := 1, mTotalDuration := duration
    mMaxDuration := duration, mLastDuration := duration }

/-- Update of an existing entry, lines 133-144 of the source: if
`mTotalDuration < INT64_MAX - duration` accumulate (increment count, take the
max, add to the total), otherwise reset count to 1 and the total and max to
`duration`; `mLastDuration` is set to `duration` after the branch either way. -/
def updateEntry (item : OpEntry) (duration : Int) : OpEntry :=
  if item.mTotalDuration < INT64_MAX - duration then
    { item with
      mCount := item.mCount + 1
      mMaxDuration := if duration > item.mMaxDuration then duration else item.mMaxDuration
      mTotalDuration := item.mTotalDuration + duration
      mLastDuration := duration }
  else
    { item with
      mCount := 1
      mMaxDuration := duration
      mTotalDuration := duration
      mLastDuration := duration }

/-- A `KeyedVector<const char*, OpEntry>` as an association list from label
to entry (the source keys on pointer identity; label equality stands in for
it). -/
def Table := List (String × OpEntry)

instance : DecidableEq Table := by
  unfold Table
  infer_instance

/-- One table's share of the duration overload of `writeCommand`:
`indexOfKey(label)`, `editValueAt` through `updateEntry` when found,
`add(label, OpEntry(label, 1, duration))` when absent. -/
def recordIn : Table → String → Int → Table
  | [], label, duration => [(label, OpEntry.init label duration)]
  | (k, e) :: rest, label, duration =>
    if k = label then (k, updateEntry e duration) :: rest
    else (k, e) :: recordIn rest label duration

/-- Lookup of the entry stored under a label, for stating per-key facts. -/
def findEntry (t : Table) (k : String) : Option OpEntry :=
  (t.find? (fun p => p.1 = k)).map (fun p => p.2)

/-- Whole-object state: the ring plus the two stat tables and the
`mIsLogCommands` timing-mode flag. -/
structure State where
  ring : Ring
  mOpBuffer : Table
  mOpBufferPerFrame : Table
  mIsLogCommands : Bool

/-- Duration overload
`DisplayListLogBuffer::writeCommand(int, const char*, nsecs_t)`: the loop over
`buffers[] = (mOpBuffer, mOpBufferPerFrame)` with
`needUpdate[] = (true, mIsLogCommands)` updates the all-time table always and
the per-frame table iff the flag is set, then the overload tail-calls the
ring `writeCommand`. -/
def writeCommandDuration (s : State) (level : Nat) (label : String) (duration : Int) :
    State :=
  { s with
    mOpBuffer := recordIn s.mOpBuffer label duration
    mOpBufferPerFrame :=
      if s.mIsLogCommands then recordIn s.mOpBufferPerFrame label duration
      else s.mOpBufferPerFrame
    ring := writeCommand s.ring level label }

/-! Report generation (`outputCommandsInternal`). -/

/-- Index computation of the insertion loop (lines 170-180): scan the already
ordered `list` and take the first position `j` whose element has a strictly
smaller `mTotalDuration` than `entry`; if none, `index` stays `list.size()`. -/
def findInsertIndex (entry : OpEntry) : List OpEntry → Nat
  | [] => 0
  | e :: rest =>
    if entry.mTotalDuration > e.mTotalDuration then 0
    else findInsertIndex entry rest + 1

/-- `Vector::insertAt(entry, index)`: place `entry` before position `i`. -/
def insertAt (l : List OpEntry) (x : OpEntry) (i : Nat) : List OpEntry :=
  l.take i ++ x :: l.drop i

/-- The sorted list built at lines 167-182: seed with `ops.valueAt(0)`
and insert each later entry at its `findInsertIndex` position. -/
def buildSorted : List OpEntry → List OpEntry
  | [] => []
  | e0 :: rest => rest.foldl (fun list entry => insertAt list entry (findInsertIndex entry list)) [e0]

/-- One line of aggregator output: the header row, or a data row carrying the
entry it formats (the `%10.2f` millisecond renderings are presentation of
these fields). -/
inductive OutLine where
  | header : OutLine
  | row : OpEntry → OutLine
deriving DecidableEq, Repr

/-- `DisplayListLogBuffer::outputCommandsInternal(FILE*)`: under
`mIsLogCommands || file`, pick `mOpBuffer` when a file sink is given and
`mOpBufferPerFrame` otherwise; return without output when the table is empty;
otherwise emit the header and one row per entry in `buildSorted` order.
`hasFile` models `file != NULL`. -/
def outputCommandsInternal (s : State) (hasFile : Bool) : List OutLine :=
  if s.mIsLogCommands || hasFile then
    let ops : Table := if hasFile then s.mOpBuffer else s.mOpBufferPerFrame
    if ops.length = 0 then []
    else OutLine.header :: (buildSorted (ops.map (fun p => p.2))).map OutLine.row
  else []

/-- `DisplayListLogBuffer::outputCommands(FILE*)`, the diagnostic dump with a
(non-null) file sink: the chronological ring dump followed by
`outputCommandsInternal(file)`.  Ring lines and aggregator lines are tagged so
the two parts land in one output stream. -/
def outputCommands (s : State) : List (String ⊕ OutLine) :=
  (dumpAll s.ring).map Sum.inl ++ (outputCommandsInternal s true).map Sum.inr

/-- `DisplayListLogBuffer::preFlush`: read the
`debug.hwui.log.duration` property (passed in as `propertyValue`, the external
collaborator's answer), set `mIsLogCommands` to whether it equals "1", and
clear the per-frame table when the flag is set. -/
def preFlush (s : State) (propertyValue : String) : State :=
  let flag : Bool := propertyValue = "1"
  let s1 : State := { s with mIsLogCommands := flag }
  if s1.mIsLogCommands then { s1 with mOpBufferPerFrame := [] } else s1

/-- `DisplayListLogBuffer::postFlush`: `outputCommandsInternal()` with the
default null file, i.e. the per-frame report to the log channel; the object
state is untouched, so as a state transformer it returns the emitted lines. -/
def postFlush (s : State) : List OutLine :=
  outputCommandsInternal s false

/-- Calling the ring overload `writeCommand(int, const char*)` on the whole
object: only the ring fields change. -/
def writeCommandState (s : State) (level : Nat) (label : String) : State :=
  { s with ring := writeCommand s.ring level label }

/-- The ring entry a `(level, label)` command is stored as. -/
def entryOf (c : Nat × String) : OpLog :=
  ⟨c.1, c.2⟩

/-- Indexing of a command sequence with a default, for stating which commands
occupy which slots. -/
def nth (l : List (Nat × String)) (i : Nat) : Nat × String :=
  l.getD i (0, "")

/-- Number of live slots between cursor `p` and cursor `e` walking forward
with wraparound in a `B`-slot ring. -/
def dist (B p e : Nat) : Nat :=
  if p ≤ e then e - p else B + e - p

/-- Read cursor position after `N` writes into a fresh `B`-slot ring
(derived below; stated as a definition so the invariant can name it). -/
def startIdx (B N : Nat) : Nat :=
  if N ≤ B - 1 then 0 else (N + 1) % B

/-- Specification-side description of the aggregator report of one table:
nothing when empty, otherwise the header and the duration-sorted rows.  Kept
separate from `outputCommandsInternal` so that theorems can state which table
the source function reports. -/
def reportTable (ops : Table) : List OutLine :=
  if ops.length = 0 then []
  else OutLine.header :: (buildSorted (ops.map (fun p => p.2))).map OutLine.row

/-- Reachability invariant of the ring: after writing `cmds` into a fresh
`B`-slot ring, the write cursor sits at `cmds.length % B`, the read cursor at
`startIdx B cmds.length`, and walking `i` slots forward from the read cursor
finds the `i`-th of the last `min cmds.length (B - 1)` commands. -/
structure ReachInv (B : Nat) (cmds : List (Nat × String)) (r : Ring) : Prop where
  size : r.bufferSize = B
  endCursor : r.mEnd = cmds.length % B
  startCursor : r.mStart = startIdx B cmds.length
  content : ∀ i, i < min cmds.length (B - 1) →
    r.buf ((r.mStart + i) % B) =
      entryOf (nth cmds (cmds.length - min cmds.length (B - 1) + i))

/-! Ring arithmetic lemmas. -/

lemma next_eq_mod {B p : Nat} (hp : p < B) :
    (if p + 1 > B - 1 then 0 else p + 1) = (p + 1) % B := by
  rcases Nat.lt_or_ge (p + 1) B with h | h
  · rw [if_neg (by omega), Nat.mod_eq_of_lt h]
  · have hpB : p + 1 = B := by omega
    rw [if_pos (by omega), hpB, Nat.mod_self]

lemma nextEnd_eq_mod {B p : Nat} (hp : p < B) :
    (if p = B - 1 then 0 else p + 1) = (p + 1) % B := by
  by_cases h : p = B - 1
  · rw [if_pos h, h]
    have : B - 1 + 1 = B := by omega
    rw [this, Nat.mod_self]
  · rw [if_neg h, Nat.mod_eq_of_lt (by omega)]

lemma dist_self {B e : Nat} : dist B e e = 0 := by
  unfold dist
  simp

lemma dist_lt {B p e : Nat} (hp : p < B) (he : e < B) : dist B p e < B := by
  unfold dist
  split <;> omega

lemma dist_pos {B p e : Nat} (hp : p < B) (he : e < B) (hne : p ≠ e) :
    0 < dist B p e := by
  unfold dist
  split <;> omega

lemma dist_next {B p e : Nat} (hp : p < B) (he : e < B) (hne : p ≠ e) :
    dist B ((p + 1) % B) e + 1 = dist B p e := by
  rcases Nat.lt_or_ge (p + 1) B with h | h
  · rw [Nat.mod_eq_of_lt h]
    unfold dist
    split <;> split <;> omega
  · have hpB : p + 1 = B := by omega
    rw [hpB, Nat.mod_self]
    unfold dist
    split <;> split <;> omega

lemma add_mod_ne {B s i j : Nat} (hi : i < B) (hj : j < B) (hne : i ≠ j) :
    (s + i) % B ≠ (s + j) % B := by
  intro hmod
  have hij : i % B = j % B := Nat.ModEq.add_left_cancel' s hmod
  rw [Nat.mod_eq_of_lt hi, Nat.mod_eq_of_lt hj] at hij
  exact hne hij

/-! Characterization of the `outputCommands` loop. -/

lemma dumpLoop_eq (r : Ring) {p fuel : Nat} (hp : p < r.bufferSize)
    (he : r.mEnd < r.bufferSize) (hf : dist r.bufferSize p r.mEnd < fuel) :
    dumpLoop r p fuel =
      some ((List.range (dist r.bufferSize p r.mEnd)).map
        (fun i => mkLine (r.buf ((p + i) % r.bufferSize)))) := by
  induction fuel generalizing p with
  | zero => omega
  | succ fuel ih =>
    by_cases hpe : p = r.mEnd
    · rw [dumpLoop, if_pos hpe, hpe, dist_self]
      simp
    · rw [dumpLoop, if_neg hpe]
      have hB : 0 < r.bufferSize := by omega
      rw [next_eq_mod hp]
      have hnext : (p + 1) % r.bufferSize < r.bufferSize := Nat.mod_lt _ hB
      have hd := dist_next hp he hpe
      rw [ih hnext (by omega)]
      have hsplit : dist r.bufferSize p r.mEnd =
          dist r.bufferSize ((p + 1) % r.bufferSize) r.mEnd + 1 := hd.symm
      rw [hsplit, List.range_succ_eq_map, List.map_cons, List.map_map]
      simp only [Option.map_some']
      congr 1
      congr 1
      · rw [Nat.add_zero, Nat.mod_eq_of_lt hp]
      · apply List.map_congr_left
        intro i _
        simp only [Function.comp]
        rw [Nat.mod_add_mod]
        have harg : p + 1 + i = p + (i + 1) := by omega
        rw [harg]

lemma dumpAll_eq (r : Ring) (hp : r.mStart < r.bufferSize)
    (he : r.mEnd < r.bufferSize) :
    dumpAll r = (List.range (dist r.bufferSize r.mStart r.mEnd)).map
      (fun i => mkLine (r.buf ((r.mStart + i) % r.bufferSize))) := by
  unfold dumpAll
  rw [dumpLoop_eq r hp he (dist_lt hp he)]
  rfl

/-! Arithmetic facts about the cursor positions reached from a fresh ring. -/

lemma startIdx_lt {B N : Nat} (hB : 2 ≤ B) : startIdx B N < B := by
  unfold startIdx
  split
  · omega
  · exact Nat.mod_lt _ (by omega)

lemma startIdx_step {B N : Nat} (hB : 2 ≤ B) :
    (if (N + 1) % B = startIdx B N then
       if startIdx B N + 1 > B - 1 then 0 else startIdx B N + 1
     else startIdx B N) = startIdx B (N + 1) := by
  have hBpos : 0 < B := by omega
  rcases Nat.lt_trichotomy N (B - 1) with hc | hc | hc
  · simp only [startIdx]
    rw [if_pos (show N ≤ B - 1 by omega), if_pos (show N + 1 ≤ B - 1 by omega),
      Nat.mod_eq_of_lt (show N + 1 < B by omega), if_neg (show ¬ (N + 1 = 0) by omega)]
  · simp only [startIdx]
    rw [if_pos (show N ≤ B - 1 by omega), if_neg (show ¬ (N + 1 ≤ B - 1) by omega)]
    have hNB : N + 1 = B := by omega
    rw [hNB, Nat.mod_self, if_pos rfl, if_neg (show ¬ (0 + 1 > B - 1) by omega),
      Nat.add_mod_left, Nat.mod_eq_of_lt (show 1 < B by omega)]
  · simp only [startIdx]
    rw [if_neg (show ¬ (N ≤ B - 1) by omega), if_neg (show ¬ (N + 1 ≤ B - 1) by omega),
      if_pos rfl, next_eq_mod (Nat.mod_lt _ hBpos), Nat.mod_add_mod]

lemma end_eq_start_add {B N : Nat} (hB : 2 ≤ B) :
    (startIdx B N + min N (B - 1)) % B = N % B := by
  by_cases hc : N ≤ B - 1
  · simp only [startIdx]
    rw [if_pos hc, Nat.zero_add, Nat.min_eq_left hc]
  · simp only [startIdx]
    rw [if_neg hc, Nat.min_eq_right (by omega), Nat.mod_add_mod]
    have harith : N + 1 + (B - 1) = N + B := by omega
    rw [harith, Nat.add_mod_right]

lemma dist_start {B N : Nat} (hB : 2 ≤ B) :
    dist B (startIdx B N) (N % B) = min N (B - 1) := by
  have hBpos : 0 < B := by omega
  by_cases hc : N ≤ B - 1
  · simp only [startIdx]
    rw [if_pos hc, Nat.mod_eq_of_lt (by omega), Nat.min_eq_left hc]
    unfold dist
    rw [if_pos (Nat.zero_le _)]
    omega
  · simp only [startIdx]
    rw [if_neg hc, Nat.min_eq_right (by omega)]
    have hmod : (N + 1) % B = (N % B + 1) % B := by rw [Nat.mod_add_mod]
    have helt : N % B < B := Nat.mod_lt _ hBpos
    rcases Nat.lt_or_ge (N % B + 1) B with h | h
    · rw [hmod, Nat.mod_eq_of_lt h]
      unfold dist
      rw [if_neg (by omega)]
      omega
    · have hNB : N % B = B - 1 := by omega
      rw [hmod, hNB]
      have hB1 : B - 1 + 1 = B := by omega
      rw [hB1, Nat.mod_self]
      unfold dist
      rw [if_pos (Nat.zero_le _)]
      omega

/-! Index lemmas for `nth`. -/

lemma nth_append_lt {l l' : List (Nat × String)} {i : Nat} (h : i < l.length) :
    nth (l ++ l') i = nth l i := by
  unfold nth
  rw [List.getD_eq_getElem?_getD, List.getD_eq_getElem?_getD,
    List.getElem?_append_left h]

lemma nth_append_self {l : List (Nat × String)} {c : Nat × String} :
    nth (l ++ [c]) l.length = c := by
  unfold nth
  rw [List.getD_eq_getElem?_getD, List.getElem?_append_right (le_refl _),
    Nat.sub_self]
  rfl

/-! The invariant holds for every state reachable from a fresh ring. -/

lemma reachInv_nil {B : Nat} (g : Nat → OpLog) : ReachInv B [] (mkRing B g) := by
  refine ⟨rfl, ?_, ?_, ?_⟩
  · simp [mkRing]
  · simp [mkRing, startIdx]
  · intro i hi
    simp at hi

lemma reachInv_step {B : Nat} (hB : 2 ≤ B) {cmds : List (Nat × String)} {r : Ring}
    (h : ReachInv B cmds r) (c : Nat × String) :
    ReachInv B (cmds ++ [c]) (writeCommand r c.1 c.2) := by
  obtain ⟨hsize, hend, hstart, hcontent⟩ := h
  have hBpos : 0 < B := by omega
  have hendlt : r.mEnd < B := by
    rw [hend]
    exact Nat.mod_lt _ hBpos
  have hstartlt : r.mStart < B := by
    rw [hstart]
    exact startIdx_lt hB
  have hlen : (cmds ++ [c]).length = cmds.length + 1 := by simp
  have hend' : (writeCommand r c.1 c.2).mEnd = (cmds.length + 1) % B := by
    simp only [writeCommand]
    rw [hsize, nextEnd_eq_mod hendlt, hend, Nat.mod_add_mod]
  have hstart' : (writeCommand r c.1 c.2).mStart = startIdx B (cmds.length + 1) := by
    simp only [writeCommand]
    rw [hsize, nextEnd_eq_mod hendlt, hend, Nat.mod_add_mod, hstart]
    exact startIdx_step hB
  refine ⟨by simp [writeCommand, hsize], by rw [hend', hlen], by rw [hstart', hlen], ?_⟩
  intro i hi
  rw [hlen] at hi ⊢
  rw [hstart']
  simp only [writeCommand]
  rcases Nat.lt_trichotomy cmds.length (B - 1) with hc | hc | hc
  · -- not yet full and not filling the last free slot: no eviction
    have hK' : min (cmds.length + 1) (B - 1) = cmds.length + 1 :=
      Nat.min_eq_left (by omega)
    have hK : min cmds.length (B - 1) = cmds.length := Nat.min_eq_left (by omega)
    have hs1 : startIdx B (cmds.length + 1) = 0 := if_pos (by omega)
    have hs0 : startIdx B cmds.length = 0 := if_pos (by omega)
    have hendN : r.mEnd = cmds.length := by
      rw [hend, Nat.mod_eq_of_lt (by omega)]
    rw [hK'] at hi ⊢
    rw [hs1, Nat.zero_add, Nat.mod_eq_of_lt (show i < B by omega), hendN,
      Nat.sub_self, Nat.zero_add]
    rcases Nat.lt_or_ge i cmds.length with hilt | hige
    · rw [if_neg (by omega), nth_append_lt hilt]
      have hold := hcontent i (by omega)
      rw [hstart, hs0, Nat.zero_add, Nat.mod_eq_of_lt (show i < B by omega), hK,
        Nat.sub_self, Nat.zero_add] at hold
      exact hold
    · have hieq : i = cmds.length := by omega
      rw [hieq, if_pos rfl, nth_append_self]
      rfl
  · -- the write fills the reserved slot: first eviction
    have hK' : min (cmds.length + 1) (B - 1) = B - 1 := Nat.min_eq_right (by omega)
    have hK : min cmds.length (B - 1) = cmds.length := Nat.min_eq_left (by omega)
    have hs1 : startIdx B (cmds.length + 1) = 1 := by
      simp only [startIdx]
      rw [if_neg (show ¬ (cmds.length + 1 ≤ B - 1) by omega)]
      have harith : cmds.length + 1 + 1 = B + 1 := by omega
      rw [harith, Nat.add_mod_left, Nat.mod_eq_of_lt (show 1 < B by omega)]
    have hs0 : startIdx B cmds.length = 0 := if_pos (by omega)
    have hendN : r.mEnd = cmds.length := by
      rw [hend, Nat.mod_eq_of_lt (by omega)]
    rw [hK'] at hi ⊢
    rw [hs1, hendN]
    have hoff : cmds.length + 1 - (B - 1) = 1 := by omega
    rw [hoff]
    rcases Nat.lt_or_ge i (B - 2) with hilt | hige
    · have hmod : (1 + i) % B = 1 + i := Nat.mod_eq_of_lt (by omega)
      rw [hmod, if_neg (by omega), nth_append_lt (show 1 + i < cmds.length by omega)]
      have hold := hcontent (i + 1) (by omega)
      rw [hstart, hs0, Nat.zero_add, Nat.mod_eq_of_lt (show i + 1 < B by omega), hK,
        Nat.sub_self, Nat.zero_add] at hold
      have harg : 1 + i = i + 1 := by omega
      rw [harg]
      exact hold
    · have hieq : i = B - 2 := by omega
      have hmod : (1 + i) % B = cmds.length := by
        rw [hieq]
        have harith : 1 + (B - 2) = B - 1 := by omega
        rw [harith, Nat.mod_eq_of_lt (by omega)]
        omega
      rw [hmod, if_pos rfl]
      have harg : 1 + i = cmds.length := by omega
      rw [harg, nth_append_self]
      rfl
  · -- steady state: one eviction per write
    have hNB : B ≤ cmds.length := by omega
    have hK' : min (cmds.length + 1) (B - 1) = B - 1 := Nat.min_eq_right (by omega)
    have hK : min cmds.length (B - 1) = B - 1 := Nat.min_eq_right (by omega)
    have hs1 : startIdx B (cmds.length + 1) = (cmds.length + 2) % B := by
      simp only [startIdx]
      rw [if_neg (show ¬ (cmds.length + 1 ≤ B - 1) by omega)]
    have hs0 : startIdx B cmds.length = (cmds.length + 1) % B := by
      simp only [startIdx]
      rw [if_neg (show ¬ (cmds.length ≤ B - 1) by omega)]
    rw [hK'] at hi ⊢
    rw [hs1, Nat.mod_add_mod]
    have hslot : ∀ j : Nat, (cmds.length + 2 + j) % B = (startIdx B cmds.length + (j + 1)) % B := by
      intro j
      rw [hs0, Nat.mod_add_mod]
      congr 1
      omega
    have hmend : r.mEnd = (startIdx B cmds.length + (B - 1)) % B := by
      rw [hend, ← end_eq_start_add hB, hK]
    rcases Nat.lt_or_ge i (B - 2) with hilt | hige
    · rw [hslot i, if_neg (by
        rw [hmend]
        exact add_mod_ne (by omega) (by omega) (by omega))]
      have hold := hcontent (i + 1) (by omega)
      rw [hK, hstart] at hold
      have hidx : cmds.length - (B - 1) + (i + 1) = cmds.length + 1 - (B - 1) + i := by
        omega
      rw [hidx] at hold
      rw [hold, nth_append_lt (show cmds.length + 1 - (B - 1) + i < cmds.length by omega)]
    · have hieq : i = B - 2 := by omega
      have hmod : (cmds.length + 2 + i) % B = r.mEnd := by
        rw [hieq, hmend, hs0, Nat.mod_add_mod]
        congr 1
        omega
      rw [hmod, if_pos rfl]
      have harg : cmds.length + 1 - (B - 1) + i = cmds.length := by omega
      rw [harg, nth_append_self]
      rfl

lemma reachInv_writeSeq {B : Nat} (hB : 2 ≤ B) (g : Nat → OpLog)
    (cmds : List (Nat × String)) :
    ReachInv B cmds (writeSeq (mkRing B g) cmds) := by
  induction cmds using List.reverseRecOn with
  | nil => exact reachInv_nil g
  | append_singleton l a ih =>
    have hsplit : writeSeq (mkRing B g) (l ++ [a]) =
        writeCommand (writeSeq (mkRing B g) l) a.1 a.2 := by
      unfold writeSeq
      rw [List.foldl_append]
      rfl
    rw [hsplit]
    exact reachInv_step hB ih a

lemma map_eq_range_nth (f : Nat × String → String) (l : List (Nat × String)) (m : Nat) :
    (l.drop m).map f = (List.range (l.length - m)).map (fun i => f (nth l (m + i))) := by
  apply List.ext_getElem
  · simp
  · intro n h1 h2
    simp only [List.getElem_map, List.getElem_range, List.getElem_drop]
    congr 1
    unfold nth
    rw [List.getD_eq_getElem?_getD,
      List.getElem?_eq_getElem (show m + n < l.length by simp at h1; omega)]
    rfl

lemma dumpAll_writeSeq {B : Nat} (hB : 2 ≤ B) (g : Nat → OpLog)
    (cmds : List (Nat × String)) :
    dumpAll (writeSeq (mkRing B g) cmds) =
      (cmds.drop (cmds.length - min cmds.length (B - 1))).map
        (fun c => mkLine (entryOf c)) := by
  obtain ⟨hsize, hend, hstart, hcontent⟩ := reachInv_writeSeq hB g cmds
  set r := writeSeq (mkRing B g) cmds with hr
  have hstartlt : r.mStart < r.bufferSize := by
    rw [hsize, hstart]
    exact startIdx_lt hB
  have hendlt : r.mEnd < r.bufferSize := by
    rw [hsize, hend]
    exact Nat.mod_lt _ (by omega)
  rw [dumpAll_eq r hstartlt hendlt,
    map_eq_range_nth (fun c => mkLine (entryOf c)) cmds
      (cmds.length - min cmds.length (B - 1))]
  have hlen : cmds.length - (cmds.length - min cmds.length (B - 1)) =
      min cmds.length (B - 1) := by omega
  have hdist : dist r.bufferSize r.mStart r.mEnd = min cmds.length (B - 1) := by
    rw [hsize, hstart, hend]
    exact dist_start hB
  rw [hlen, hdist]
  apply List.map_congr_left
  intro i hi
  simp only [List.mem_range] at hi
  rw [hsize, hcontent i hi]

lemma dumpLoop_shape {r : Ring} {fuel : Nat} {p : Nat} {l : String}
    (hl : l ∈ (dumpLoop r p fuel).getD []) : ∃ q, l = mkLine (r.buf q) := by
  induction fuel generalizing p with
  | zero => simp [dumpLoop] at hl
  | succ fuel ih =>
    rw [dumpLoop] at hl
    by_cases hpe : p = r.mEnd
    · rw [if_pos hpe] at hl
      simp at hl
    · rw [if_neg hpe] at hl
      rcases hdl : dumpLoop r (if p + 1 > r.bufferSize - 1 then 0 else p + 1) fuel with _ | rest
      · rw [hdl] at hl
        simp at hl
      · rw [hdl] at hl
        simp only [Option.map_some', Option.getD_some, List.mem_cons] at hl
        rcases hl with h | h
        · exact ⟨p, h⟩
        · exact ih (by rw [hdl]; simpa)

/-! Table lookup lemmas. -/

lemma findEntry_nil {k : String} : findEntry ([] : Table) k = none := rfl

lemma findEntry_cons {k0 : String} {e0 : OpEntry} {rest : Table} {k : String} :
    findEntry ((k0, e0) :: rest) k = if k0 = k then some e0 else findEntry rest k := by
  unfold findEntry
  by_cases hk : k0 = k
  · rw [if_pos hk, List.find?_cons_of_pos _ (by simp [hk])]
    rfl
  · rw [if_neg hk, List.find?_cons_of_neg _ (by simp [hk])]

lemma findEntry_recordIn_absent {t : Table} {k : String} (d : Int)
    (h : findEntry t k = none) :
    findEntry (recordIn t k d) k = some (OpEntry.init k d) := by
  induction t with
  | nil =>
    simp only [recordIn]
    rw [findEntry_cons, if_pos rfl]
  | cons p rest ih =>
    obtain ⟨k0, e0⟩ := p
    rw [findEntry_cons] at h
    by_cases hk : k0 = k
    · rw [if_pos hk] at h
      exact absurd h (by simp)
    · rw [if_neg hk] at h
      simp only [recordIn]
      rw [if_neg hk, findEntry_cons, if_neg hk]
      exact ih h

lemma findEntry_recordIn_present {t : Table} {k : String} {e : OpEntry} (d : Int)
    (h : findEntry t k = some e) :
    findEntry (recordIn t k d) k = some (updateEntry e d) := by
  induction t with
  | nil => exact absurd h (by simp [findEntry_nil])
  | cons p rest ih =>
    obtain ⟨k0, e0⟩ := p
    rw [findEntry_cons] at h
    by_cases hk : k0 = k
    · rw [if_pos hk] at h
      injection h with he
      simp only [recordIn]
      rw [if_pos hk, findEntry_cons, if_pos hk, he]
    · rw [if_neg hk] at h
      simp only [recordIn]
      rw [if_neg hk, findEntry_cons, if_neg hk]
      exact ih h

lemma findEntry_recordIn_ne {t : Table} {k k' : String} (d : Int) (hne : k' ≠ k) :
    findEntry (recordIn t k d) k' = findEntry t k' := by
  induction t with
  | nil =>
    simp only [recordIn]
    rw [findEntry_cons, if_neg (fun hh => hne hh.symm), findEntry_nil]
  | cons p rest ih =>
    obtain ⟨k0, e0⟩ := p
    simp only [recordIn]
    by_cases hk : k0 = k
    · rw [if_pos hk, findEntry_cons, findEntry_cons,
        if_neg (by rw [hk]; exact fun hh => hne hh.symm),
        if_neg (by rw [hk]; exact fun hh => hne hh.symm)]
    · rw [if_neg hk, findEntry_cons, findEntry_cons]
      by_cases hk' : k0 = k'
      · rw [if_pos hk', if_pos hk']
      · rw [if_neg hk', if_neg hk']
        exact ih

/-! Insertion sort lemmas for the report. -/

lemma insertAt_perm (l : List OpEntry) (x : OpEntry) (i : Nat) :
    (insertAt l x i).Perm (x :: l) := by
  have h : (l.take i ++ x :: l.drop i).Perm (x :: (l.take i ++ l.drop i)) :=
    List.perm_middle
  unfold insertAt
  rwa [List.take_append_drop] at h

lemma insertAt_cons_succ (e : OpEntry) (l : List OpEntry) (x : OpEntry) (i : Nat) :
    insertAt (e :: l) x (i + 1) = e :: insertAt l x i := by
  unfold insertAt
  simp

lemma insertAt_sorted {l : List OpEntry} (x : OpEntry)
    (hl : l.Pairwise (fun a b => b.mTotalDuration ≤ a.mTotalDuration)) :
    (insertAt l x (findInsertIndex x l)).Pairwise
      (fun a b => b.mTotalDuration ≤ a.mTotalDuration) := by
  induction l with
  | nil => simp [insertAt, findInsertIndex]
  | cons e rest ih =>
    rw [List.pairwise_cons] at hl
    obtain ⟨he, hrest⟩ := hl
    simp only [findInsertIndex]
    by_cases hx : x.mTotalDuration > e.mTotalDuration
    · rw [if_pos hx]
      have h0 : insertAt (e :: rest) x 0 = x :: e :: rest := by
        unfold insertAt
        simp
      rw [h0, List.pairwise_cons]
      refine ⟨?_, List.pairwise_cons.mpr ⟨he, hrest⟩⟩
      intro b hb
      rcases List.mem_cons.mp hb with hb | hb
      · rw [hb]
        omega
      · have := he b hb
        omega
    · rw [if_neg hx, insertAt_cons_succ, List.pairwise_cons]
      refine ⟨?_, ih hrest⟩
      intro b hb
      have hmem : b ∈ x :: rest := (insertAt_perm rest x _).mem_iff.mp hb
      rcases List.mem_cons.mp hmem with hb' | hb'
      · rw [hb']
        omega
      · exact he b hb'

lemma foldl_insert_sorted (l : List OpEntry) :
    ∀ acc : List OpEntry,
      acc.Pairwise (fun a b => b.mTotalDuration ≤ a.mTotalDuration) →
      (l.foldl (fun list entry => insertAt list entry (findInsertIndex entry list)) acc).Perm
          (acc ++ l) ∧
        (l.foldl (fun list entry => insertAt list entry (findInsertIndex entry list))
            acc).Pairwise (fun a b => b.mTotalDuration ≤ a.mTotalDuration) := by
  induction l with
  | nil =>
    intro acc hacc
    refine ⟨?_, hacc⟩
    simp
  | cons x l ih =>
    intro acc hacc
    simp only [List.foldl_cons]
    obtain ⟨hp, hs⟩ := ih (insertAt acc x (findInsertIndex x acc)) (insertAt_sorted x hacc)
    refine ⟨?_, hs⟩
    exact hp.trans ((((insertAt_perm acc x _)).append_right l).trans List.perm_middle.symm)

lemma buildSorted_perm (ops : List OpEntry) : (buildSorted ops).Perm ops := by
  cases ops with
  | nil => simp [buildSorted]
  | cons e0 rest => exact (foldl_insert_sorted rest [e0] (by simp)).1

lemma buildSorted_sorted (ops : List OpEntry) :
    (buildSorted ops).Pairwise (fun a b => b.mTotalDuration ≤ a.mTotalDuration) := by
  cases ops with
  | nil => simp [buildSorted]
  | cons e0 rest => exact (foldl_insert_sorted rest [e0] (by simp)).2

/-! Claim theorems. -/

/-- C1: starting from a freshly constructed empty ring of `B = NUM_COMMANDS + 1`
slots, after any sequence of `N` `writeCommand` calls the chronological dump of
`outputCommands` is exactly those `N` entries in write order when
`N ≤ B - 1`, and exactly the most recent `B - 1` entries in write order (every
older entry dropped) when `N > B - 1`. -/
theorem claim_C1 (B : Nat) (hB : 2 ≤ B) (g : Nat → OpLog)
    (cmds : List (Nat × String)) :
    (cmds.length ≤ B - 1 →
      dumpAll (writeSeq (mkRing B g) cmds) = cmds.map (fun c => mkLine (entryOf c))) ∧
    (cmds.length > B - 1 →
      dumpAll (writeSeq (mkRing B g) cmds) =
        (cmds.drop (cmds.length - (B - 1))).map (fun c => mkLine (entryOf c))) := by
  constructor
  · intro hle
    rw [dumpAll_writeSeq hB g cmds, Nat.min_eq_left hle, Nat.sub_self, List.drop_zero]
  · intro hgt
    rw [dumpAll_writeSeq hB g cmds, Nat.min_eq_right (by omega)]

/-- Witness for C1: five writes into a four-slot ring keep the last three. -/
theorem claim_C1_witness :
    ([(0, "A"), (1, "B"), (0, "C"), (0, "D"), (2, "E")] : List (Nat × String)).length >
        4 - 1 ∧
    dumpAll (writeSeq (mkRing 4 (fun _ => ⟨0, "x"⟩))
        [(0, "A"), (1, "B"), (0, "C"), (0, "D"), (2, "E")]) =
      (([(0, "A"), (1, "B"), (0, "C"), (0, "D"), (2, "E")] : List (Nat × String)).drop
          (([(0, "A"), (1, "B"), (0, "C"), (0, "D"), (2, "E")] :
            List (Nat × String)).length - (4 - 1))).map
        (fun c => mkLine (entryOf c)) :=
  ⟨by decide,
    (claim_C1 4 (by omega) (fun _ => ⟨0, "x"⟩)
      [(0, "A"), (1, "B"), (0, "C"), (0, "D"), (2, "E")]).2 (by decide)⟩

/-- C2: the freshly constructed ring is empty with both cursors equal and an
empty dump; in every state reachable by `writeCommand` calls both cursors are
valid slot indices, the dump walks exactly the slots from `mStart` up to but
excluding `mEnd` modulo the capacity, and at most `capacity - 1` entries are
live. -/
theorem claim_C2 (B : Nat) (hB : 2 ≤ B) (g : Nat → OpLog)
    (cmds : List (Nat × String)) :
    (mkRing B g).mStart = (mkRing B g).mEnd ∧
    dumpAll (mkRing B g) = [] ∧
    (writeSeq (mkRing B g) cmds).mStart < B ∧
    (writeSeq (mkRing B g) cmds).mEnd < B ∧
    dist B (writeSeq (mkRing B g) cmds).mStart (writeSeq (mkRing B g) cmds).mEnd ≤
      B - 1 ∧
    dumpAll (writeSeq (mkRing B g) cmds) =
      (List.range (dist B (writeSeq (mkRing B g) cmds).mStart
          (writeSeq (mkRing B g) cmds).mEnd)).map
        (fun i => mkLine ((writeSeq (mkRing B g) cmds).buf
          (((writeSeq (mkRing B g) cmds).mStart + i) % B))) := by
  obtain ⟨hsize, hend, hstart, _⟩ := reachInv_writeSeq hB g cmds
  set r := writeSeq (mkRing B g) cmds with hr
  have h1 : r.mStart < B := by
    rw [hstart]
    exact startIdx_lt hB
  have h2 : r.mEnd < B := by
    rw [hend]
    exact Nat.mod_lt _ (by omega)
  refine ⟨rfl, ?_, h1, h2, ?_, ?_⟩
  · rw [dumpAll_eq (mkRing B g) (by simp [mkRing]; omega) (by simp [mkRing]; omega)]
    simp [mkRing, dist_self]
  · have := dist_lt h1 h2
    omega
  · have heq := dumpAll_eq r (by rw [hsize]; exact h1) (by rw [hsize]; exact h2)
    rw [hsize] at heq
    exact heq

/-- Witness for C2: cursors of a four-slot ring after one write. -/
theorem claim_C2_witness :
    (writeSeq (mkRing 4 (fun _ => ⟨0, "w"⟩)) [(0, "A")]).mStart < 4 ∧
    (writeSeq (mkRing 4 (fun _ => ⟨0, "w"⟩)) [(0, "A")]).mEnd < 4 :=
  ⟨(claim_C2 4 (by omega) (fun _ => ⟨0, "w"⟩) [(0, "A")]).2.2.1,
    (claim_C2 4 (by omega) (fun _ => ⟨0, "w"⟩) [(0, "A")]).2.2.2.1⟩

/-- C3 (amended): with the sum strictly below the `INT64_MAX` ceiling (the
source resets the stat when the running total reaches the ceiling exactly),
two records of the same label starting from tables where it is absent yield
count 1 with all fields `d1` after the first and count 2, total `d1 + d2`,
max `max d1 d2`, last `d2` after the second, in the all-time table always and
in the per-frame table exactly when timing mode is enabled. -/
theorem claim_C3_amended (s : State) (lvl1 lvl2 : Nat) (label : String) (d1 d2 : Int)
    (h1 : 0 ≤ d1) (h2 : 0 ≤ d2) (hsum : d1 + d2 < INT64_MAX)
    (habs : findEntry s.mOpBuffer label = none)
    (habsPF : findEntry s.mOpBufferPerFrame label = none) :
    findEntry (writeCommandDuration s lvl1 label d1).mOpBuffer label =
        some ⟨label, 1, d1, d1, d1⟩ ∧
    findEntry (writeCommandDuration (writeCommandDuration s lvl1 label d1)
        lvl2 label d2).mOpBuffer label =
      some ⟨label, 2, d1 + d2, max d1 d2, d2⟩ ∧
    (s.mIsLogCommands = true →
      findEntry (writeCommandDuration s lvl1 label d1).mOpBufferPerFrame label =
          some ⟨label, 1, d1, d1, d1⟩ ∧
      findEntry (writeCommandDuration (writeCommandDuration s lvl1 label d1)
          lvl2 label d2).mOpBufferPerFrame label =
        some ⟨label, 2, d1 + d2, max d1 d2, d2⟩) ∧
    (s.mIsLogCommands = false →
      findEntry (writeCommandDuration (writeCommandDuration s lvl1 label d1)
          lvl2 label d2).mOpBufferPerFrame label = none) := by
  have hupd : updateEntry (OpEntry.init label d1) d2 =
      ⟨label, 2, d1 + d2, max d1 d2, d2⟩ := by
    have hmax : (if d2 > d1 then d2 else d1) = max d1 d2 := by
      rw [max_def]
      split_ifs <;> omega
    unfold updateEntry OpEntry.init
    rw [if_pos (show d1 < INT64_MAX - d2 by omega), hmax]
    norm_num
  have hfirst : findEntry (writeCommandDuration s lvl1 label d1).mOpBuffer label =
      some (OpEntry.init label d1) := by
    simp only [writeCommandDuration]
    exact findEntry_recordIn_absent d1 habs
  refine ⟨hfirst, ?_, ?_, ?_⟩
  · simp only [writeCommandDuration] at hfirst ⊢
    rw [findEntry_recordIn_present d2 hfirst, hupd]
  · intro hflag
    have hPF1 : (writeCommandDuration s lvl1 label d1).mOpBufferPerFrame =
        recordIn s.mOpBufferPerFrame label d1 := by
      simp [writeCommandDuration, hflag]
    have hPF2 : (writeCommandDuration (writeCommandDuration s lvl1 label d1)
          lvl2 label d2).mOpBufferPerFrame =
        recordIn (recordIn s.mOpBufferPerFrame label d1) label d2 := by
      simp [writeCommandDuration, hflag]
    have hfirstPF : findEntry (recordIn s.mOpBufferPerFrame label d1) label =
        some (OpEntry.init label d1) := findEntry_recordIn_absent d1 habsPF
    refine ⟨by rw [hPF1]; exact hfirstPF, ?_⟩
    rw [hPF2, findEntry_recordIn_present d2 hfirstPF, hupd]
  · intro hflag
    have hPF2 : (writeCommandDuration (writeCommandDuration s lvl1 label d1)
          lvl2 label d2).mOpBufferPerFrame = s.mOpBufferPerFrame := by
      simp [writeCommandDuration, hflag]
    rw [hPF2]
    exact habsPF

/-- Witness for C3 (amended) at small durations. -/
theorem claim_C3_witness :
    findEntry (writeCommandDuration (writeCommandDuration
        ⟨mkRing 4 (fun _ => ⟨0, ""⟩), [], [], false⟩ 0 "A" 3) 0 "A" 5).mOpBuffer "A" =
      some ⟨"A", 2, 3 + 5, max 3 5, 5⟩ :=
  (claim_C3_amended ⟨mkRing 4 (fun _ => ⟨0, ""⟩), [], [], false⟩ 0 0 "A" 3 5
    (by norm_num) (by norm_num) (by norm_num [INT64_MAX]) rfl rfl).2.1

/-- C3 counterexample: with `d1 = INT64_MAX - 5` and `d2 = 5` the sum equals
`INT64_MAX`, which the 64-bit accumulator represents, so it does not overflow;
yet the second record resets the stat to count 1 and total 5 instead of
accumulating to count 2 and total `d1 + d2`. -/
theorem claim_C3_counterexample :
    (INT64_MAX - 5) + 5 ≤ INT64_MAX ∧
    findEntry (writeCommandDuration (writeCommandDuration
        ⟨mkRing 4 (fun _ => ⟨0, ""⟩), [], [], false⟩ 0 "A" (INT64_MAX - 5))
        0 "A" 5).mOpBuffer "A" =
      some ⟨"A", 1, 5, 5, 5⟩ ∧
    some (⟨"A", 1, 5, 5, 5⟩ : OpEntry) ≠
      some (⟨"A", 2, (INT64_MAX - 5) + 5, max (INT64_MAX - 5) 5, 5⟩ : OpEntry) := by
  refine ⟨by norm_num [INT64_MAX], by decide, by decide⟩

/-- C4 (amended): an existing stat accumulates (count incremented, max
updated, duration added to the total) iff `total + d` is strictly below
`INT64_MAX` — the guard `mTotalDuration < INT64_MAX - duration` also resets
when the sum lands exactly on `INT64_MAX` — and otherwise count is reset to 1
with total and max set to `d`; `lastDuration` is set to `d` in both branches. -/
theorem claim_C4_amended (t : Table) (label : String) (item : OpEntry) (d : Int)
    (hd : 0 ≤ d) (hfound : findEntry t label = some item) :
    (item.mTotalDuration + d < INT64_MAX →
      findEntry (recordIn t label d) label =
        some ⟨item.mName, item.mCount + 1, item.mTotalDuration + d,
          if d > item.mMaxDuration then d else item.mMaxDuration, d⟩) ∧
    (INT64_MAX ≤ item.mTotalDuration + d →
      findEntry (recordIn t label d) label = some ⟨item.mName, 1, d, d, d⟩) := by
  obtain ⟨n, cnt, tot, mx, lst⟩ := item
  constructor
  · intro hlt
    rw [findEntry_recordIn_present d hfound]
    unfold updateEntry
    rw [if_pos (by simp at hlt ⊢; omega)]
  · intro hge
    rw [findEntry_recordIn_present d hfound]
    unfold updateEntry
    rw [if_neg (by simp at hge ⊢; omega)]

/-- Witness for C4 (amended): accumulation with a small total. -/
theorem claim_C4_witness :
    findEntry (recordIn [("A", ⟨"A", 3, 10, 9, 9⟩)] "A" 5) "A" =
      some ⟨"A", 3 + 1, 10 + 5, if (5:Int) > 9 then 5 else 9, 5⟩ :=
  (claim_C4_amended [("A", ⟨"A", 3, 10, 9, 9⟩)] "A" ⟨"A", 3, 10, 9, 9⟩ 5
    (by norm_num) (by decide)).1 (by norm_num [INT64_MAX])

/-- C4 counterexample: with total `INT64_MAX - 5` and `d = 5` the sum equals
`INT64_MAX`, which does not overflow the 64-bit accumulator, yet the code
resets the stat instead of accumulating. -/
theorem claim_C4_counterexample :
    (INT64_MAX - 5) + 5 ≤ INT64_MAX ∧
    findEntry (recordIn [("A", ⟨"A", 3, INT64_MAX - 5, 9, 9⟩)] "A" 5) "A" =
      some ⟨"A", 1, 5, 5, 5⟩ ∧
    some (⟨"A", 1, 5, 5, 5⟩ : OpEntry) ≠
      some (⟨"A", 3 + 1, (INT64_MAX - 5) + 5, 9, 5⟩ : OpEntry) := by
  refine ⟨by norm_num [INT64_MAX], by decide, by decide⟩

/-- C5: when the report runs (a file sink is given, or timing mode is on for
the log-channel path), an empty table produces no output at all — not even the
header — and a nonempty table produces the header followed by exactly one row
per entry, in non-increasing order of `mTotalDuration`. -/
theorem claim_C5 (s : State) (hasFile : Bool)
    (hactive : (s.mIsLogCommands || hasFile) = true) :
    ((if hasFile then s.mOpBuffer else s.mOpBufferPerFrame) = [] →
      outputCommandsInternal s hasFile = []) ∧
    ((if hasFile then s.mOpBuffer else s.mOpBufferPerFrame) ≠ [] →
      ∃ rows : List OpEntry,
        outputCommandsInternal s hasFile = OutLine.header :: rows.map OutLine.row ∧
        rows.Perm ((if hasFile then s.mOpBuffer else s.mOpBufferPerFrame).map
          (fun p => p.2)) ∧
        rows.Pairwise (fun a b => b.mTotalDuration ≤ a.mTotalDuration)) := by
  constructor
  · intro hnil
    unfold outputCommandsInternal
    rw [if_pos hactive, hnil]
    simp
  · intro hne
    refine ⟨buildSorted ((if hasFile then s.mOpBuffer else s.mOpBufferPerFrame).map
      (fun p => p.2)), ?_, buildSorted_perm _, buildSorted_sorted _⟩
    unfold outputCommandsInternal
    rw [if_pos hactive,
      if_neg (fun h => hne (List.length_eq_zero.mp h))]

/-- Witness for C5: totals 30, 10, 20 report as some descending ordering. -/
theorem claim_C5_witness :
    ∃ rows : List OpEntry,
      outputCommandsInternal
          ⟨mkRing 4 (fun _ => ⟨0, ""⟩),
            [("a", ⟨"a", 1, 30, 30, 30⟩), ("b", ⟨"b", 1, 10, 10, 10⟩),
              ("c", ⟨"c", 1, 20, 20, 20⟩)], [], false⟩ true =
        OutLine.header :: rows.map OutLine.row ∧
      rows.Perm (([("a", (⟨"a", 1, 30, 30, 30⟩ : OpEntry)),
          ("b", ⟨"b", 1, 10, 10, 10⟩), ("c", ⟨"c", 1, 20, 20, 20⟩)] : Table).map
        (fun p => p.2)) ∧
      rows.Pairwise (fun a b => b.mTotalDuration ≤ a.mTotalDuration) :=
  (claim_C5
    ⟨mkRing 4 (fun _ => ⟨0, ""⟩),
      [("a", ⟨"a", 1, 30, 30, 30⟩), ("b", ⟨"b", 1, 10, 10, 10⟩),
        ("c", ⟨"c", 1, 20, 20, 20⟩)], [], false⟩ true rfl).2 (by decide)

/-- C6 (amended): `preFlush` clears the per-frame table exactly when the
freshly read property value enables timing mode — also when the mode was
already enabled on the previous frame, not only when newly enabled — and it
touches neither the all-time table nor the ring; the all-time table is
likewise untouched by the plain ring write, so no operation other than the
duration-recording overload modifies it. -/
theorem claim_C6_amended (s : State) (v : String) (level : Nat) (label : String) :
    (preFlush s v).mOpBuffer = s.mOpBuffer ∧
    (preFlush s v).ring = s.ring ∧
    (preFlush s v).mIsLogCommands = decide (v = "1") ∧
    (v = "1" → (preFlush s v).mOpBufferPerFrame = []) ∧
    (v ≠ "1" → (preFlush s v).mOpBufferPerFrame = s.mOpBufferPerFrame) ∧
    (writeCommandState s level label).mOpBuffer = s.mOpBuffer ∧
    (writeCommandState s level label).mOpBufferPerFrame = s.mOpBufferPerFrame := by
  unfold preFlush writeCommandState
  by_cases hv : v = "1" <;> simp [hv]

/-- Witness for C6 (amended): a "1" property value clears the per-frame table. -/
theorem claim_C6_witness :
    (preFlush ⟨mkRing 4 (fun _ => ⟨0, ""⟩), [], [("B", ⟨"B", 1, 7, 7, 7⟩)], false⟩
        "1").mOpBufferPerFrame = [] :=
  (claim_C6_amended ⟨mkRing 4 (fun _ => ⟨0, ""⟩), [], [("B", ⟨"B", 1, 7, 7, 7⟩)], false⟩
    "1" 0 "L").2.2.2.1 rfl

/-- C6 counterexample: timing mode is already enabled (`mIsLogCommands` is
true) and the property still reads "1", so the mode is not newly enabled for
the upcoming frame, yet `preFlush` clears the nonempty per-frame table. -/
theorem claim_C6_counterexample :
    (⟨mkRing 4 (fun _ => ⟨0, ""⟩), [], [("B", ⟨"B", 1, 7, 7, 7⟩)], true⟩ :
        State).mIsLogCommands = true ∧
    (preFlush ⟨mkRing 4 (fun _ => ⟨0, ""⟩), [], [("B", ⟨"B", 1, 7, 7, 7⟩)], true⟩
        "1").mOpBufferPerFrame = [] ∧
    (⟨mkRing 4 (fun _ => ⟨0, ""⟩), [], [("B", ⟨"B", 1, 7, 7, 7⟩)], true⟩ :
        State).mOpBufferPerFrame ≠ ([] : Table) := by
  refine ⟨rfl, by decide, by decide⟩

/-- C7: for every ring state whose cursors are valid slot indices, the
`outputCommands` iteration terminates: `bufferSize` steps of fuel already
reach the exit condition (iteration cursor equal to `mEnd`), and any larger
fuel returns the same finished output.  In the embedding the loop reads the
ring and writes only the returned lines, so the ring state is unchanged by
construction. -/
theorem claim_C7 (r : Ring) (h1 : r.mStart < r.bufferSize)
    (h2 : r.mEnd < r.bufferSize) :
    ∃ out, ∀ fuel, r.bufferSize ≤ fuel → dumpLoop r r.mStart fuel = some out := by
  refine ⟨(List.range (dist r.bufferSize r.mStart r.mEnd)).map
    (fun i => mkLine (r.buf ((r.mStart + i) % r.bufferSize))), ?_⟩
  intro fuel hf
  have hd := dist_lt h1 h2
  exact dumpLoop_eq r h1 h2 (by omega)

/-- Witness for C7 on a concrete four-slot ring. -/
theorem claim_C7_witness :
    ∃ out, ∀ fuel, (mkRing 4 (fun _ => ⟨0, "y"⟩)).bufferSize ≤ fuel →
      dumpLoop (mkRing 4 (fun _ => ⟨0, "y"⟩)) (mkRing 4 (fun _ => ⟨0, "y"⟩)).mStart
        fuel = some out :=
  claim_C7 (mkRing 4 (fun _ => ⟨0, "y"⟩)) (by decide) (by decide)

/-- C8: the diagnostic dump with a file sink emits the chronological ring dump
first and then the report of the all-time table — never the per-frame table —
whatever the timing-mode flag and the per-frame table contents are. -/
theorem claim_C8 (s : State) :
    outputCommands s =
      (dumpAll s.ring).map Sum.inl ++ (reportTable s.mOpBuffer).map Sum.inr ∧
    (∀ b : Bool, outputCommands { s with mIsLogCommands := b } = outputCommands s) ∧
    (∀ pf : Table, outputCommands { s with mOpBufferPerFrame := pf } =
      outputCommands s) := by
  refine ⟨?_, ?_, ?_⟩
  · unfold outputCommands outputCommandsInternal reportTable
    simp
  · intro b
    unfold outputCommands outputCommandsInternal
    simp
  · intro pf
    unfold outputCommands outputCommandsInternal
    simp

/-- C9: every line the ring dump emits is the formatting of some slot —
`2 * level` spaces followed by the label — and on the concrete capacity-4
scenario the dump is "A", "  B", "C" after three writes, and "  B", "C", "D"
with "A" evicted after the fourth. -/
theorem claim_C9 :
    (∀ (r : Ring) (l : String), l ∈ dumpAll r → ∃ q, l = mkLine (r.buf q)) ∧
    dumpAll (writeSeq (mkRing 4 (fun _ => ⟨0, ""⟩)) [(0, "A"), (1, "B"), (0, "C")]) =
      ["A", "  B", "C"] ∧
    dumpAll (writeSeq (mkRing 4 (fun _ => ⟨0, ""⟩))
        [(0, "A"), (1, "B"), (0, "C"), (0, "D")]) = ["  B", "C", "D"] := by
  refine ⟨?_, by decide, by decide⟩
  intro r l hl
  exact dumpLoop_shape hl

/-- Witness for C9: the line "C" of the scenario dump is the formatting of a
slot of the ring. -/
theorem claim_C9_witness :
    ("C" : String) ∈ dumpAll (writeSeq (mkRing 4 (fun _ => ⟨0, ""⟩))
        [(0, "A"), (1, "B"), (0, "C")]) ∧
    ∃ q, ("C" : String) = mkLine ((writeSeq (mkRing 4 (fun _ => ⟨0, ""⟩))
        [(0, "A"), (1, "B"), (0, "C")]).buf q) :=
  ⟨by decide, claim_C9.1 _ "C" (by decide)⟩

/-- C10: recording a duration for one label leaves the entry of every other
label unchanged in both the all-time and the per-frame table. -/
theorem claim_C10 (s : State) (level : Nat) (label label' : String) (d : Int)
    (hne : label' ≠ label) :
    findEntry (writeCommandDuration s level label d).mOpBuffer label' =
        findEntry s.mOpBuffer label' ∧
    findEntry (writeCommandDuration s level label d).mOpBufferPerFrame label' =
        findEntry s.mOpBufferPerFrame label' := by
  constructor
  · simp only [writeCommandDuration]
    exact findEntry_recordIn_ne d hne
  · simp only [writeCommandDuration]
    by_cases hf : s.mIsLogCommands = true
    · simp only [hf, if_true]
      exact findEntry_recordIn_ne d hne
    · simp [hf]

/-- Witness for C10: recording under "A" keeps the entry of "B". -/
theorem claim_C10_witness :
    findEntry (writeCommandDuration
        ⟨mkRing 4 (fun _ => ⟨0, ""⟩), [("B", ⟨"B", 2, 9, 6, 3⟩)], [], false⟩
        0 "A" 5).mOpBuffer "B" =
      findEntry (⟨mkRing 4 (fun _ => ⟨0, ""⟩), [("B", ⟨"B", 2, 9, 6, 3⟩)], [],
        false⟩ : State).mOpBuffer "B" :=
  (claim_C10 ⟨mkRing 4 (fun _ => ⟨0, ""⟩), [("B", ⟨"B", 2, 9, 6, 3⟩)], [], false⟩
    0 "A" "B" 5 (by decide)).1

end DisplayListLogBuffer
